import Mathlib

/-!
Shallow embedding of the audio-graph utility nodes of this repository
(`src/examples/AudioNodeDev/UtilityNodes.h` and
`src/modules/tracktion_engine/playback/graph/tracktion_LiveMidiOutputNode.cpp`)
together with proofs of the specified properties.

Audio samples are modelled as exact rationals; machine `float` addition becomes
rational addition.  Fallible operations (the `jassert`ed FIFO reads/writes)
return `Option`.
-/

/-!
Part 1: the audio path of `LatencyAudioNode` (UtilityNodes.h, lines 26-95).
-/

/-- Modelled from the spec: `tracktion_engine::AudioFifo` (its implementation is
not under `src/`; the spec, section 4.2, describes "a circular buffer per channel
sized `delaySamples + blockSize + 1`" primed with `delaySamples` samples of
silence).  We model one channel of the ring buffer: `size` is the allocated slot
count, of which at most `size - 1` may be queued at once (the classic
one-slot-free ring-buffer discipline that explains the `+ 1` in the allocation);
`data` holds the queued samples, oldest first. -/
structure AudioFifo where
  size : ℕ
  data : List ℚ

/-- Number of samples ready to be read (`AudioFifo::getNumReady`). -/
def AudioFifo.getNumReady (f : AudioFifo) : ℕ :=
  f.data.length

/-- Modelled from the spec: `AudioFifo::write` appends a block of samples to the
ring buffer; writing more than the buffer can hold is a fatal overflow, embedded
as `none`. -/
def AudioFifo.write (f : AudioFifo) (block : List ℚ) : Option AudioFifo :=
  if f.data.length + block.length + 1 ≤ f.size then
    some ⟨f.size, f.data ++ block⟩
  else
    none

/-- Modelled from the spec: `AudioFifo::writeSilence n` writes `n` zero samples. -/
def AudioFifo.writeSilence (f : AudioFifo) (n : ℕ) : Option AudioFifo :=
  f.write (List.replicate n 0)

/-- Modelled from the spec: `AudioFifo::readAdding dest` pops `dest.length`
samples from the FIFO and adds them onto the destination block's prior contents.
Asking for more samples than are ready is the fatal underflow of
UtilityNodes.h line 80 (`jassert (fifo.getNumReady() >= outputBlock.getNumSamples())`),
embedded as `none`. -/
def AudioFifo.readAdding (f : AudioFifo) (dest : List ℚ) : Option (AudioFifo × List ℚ) :=
  if dest.length ≤ f.data.length then
    some (⟨f.size, f.data.drop dest.length⟩,
          List.zipWith (· + ·) dest (f.data.take dest.length))
  else
    none

/-- Embedding of `LatencyAudioNode::prepareToPlay` (UtilityNodes.h lines 58-63): size the fifo
to `latencyNumSamples + blockSize + 1` slots and prime it with `latencyNumSamples`
samples of silence. -/
def latencyPrepareToPlay (latencyNumSamples blockSize : ℕ) : Option AudioFifo :=
  AudioFifo.writeSilence ⟨latencyNumSamples + blockSize + 1, []⟩ latencyNumSamples

/-- Audio path of `LatencyAudioNode::process` (UtilityNodes.h lines 65-87): write
the input block into the delay fifo, then `readAdding` the oldest samples onto the
output block.  Returns the new fifo state and the output block's final contents;
`none` embeds a failed `jassert`. -/
def latencyProcessAudio (fifo : AudioFifo) (inputBuffer outputBlock : List ℚ) :
    Option (AudioFifo × List ℚ) :=
  match fifo.write inputBuffer with
  | none => none
  | some f => f.readAdding outputBlock

/-- Repeated `process` calls on one `LatencyAudioNode`: each list entry is an
(input block, prior destination-block contents) pair.  Returns the final fifo
state and the concatenation of every call's output block. -/
def latencyRun (fifo : AudioFifo) : List (List ℚ × List ℚ) → Option (AudioFifo × List ℚ)
  | [] => some (fifo, [])
  | blk :: rest =>
    match latencyProcessAudio fifo blk.1 blk.2 with
    | none => none
    | some (f, out) =>
      match latencyRun f rest with
      | none => none
      | some (f2, outs) => some (f2, out ++ outs)

/-- Unit impulse: sample 0 is `1`, every later sample is silent. -/
def impulse : ℕ → List ℚ
  | 0 => []
  | Nat.succ m => 1 :: List.replicate m 0

/-!
Part 2: the MIDI path of `LatencyAudioNode` (UtilityNodes.h lines 77, 83-84).
-/

/-- A timestamped MIDI event: `ts` is the sample offset the buffer keys the
event by, `ev` an abstract message payload. -/
structure MidiEvent where
  ts : ℤ
  ev : ℕ
deriving DecidableEq

/-- Window test used by `juce::MidiBuffer::addEvents`/`clear`: an event is taken
when its timestamp lies in `[startSample, startSample + numSamples)`; a negative
`numSamples` means everything from `startSample` on. -/
def midiWindow (startSample numSamples : ℤ) (m : MidiEvent) : Bool :=
  decide (startSample ≤ m.ts) &&
    (decide (numSamples < 0) || decide (m.ts < startSample + numSamples))

/-- Modelled from the spec: `juce::MidiBuffer::addEvents (src, startSample,
numSamples, delta)` (JUCE is outside this repository; the spec, section 4.2,
describes the two call sites): appends to `dst` every event of `src` inside the
window, with its timestamp shifted by `delta`. -/
def midiAddEvents (dst src : List MidiEvent) (startSample numSamples delta : ℤ) :
    List MidiEvent :=
  dst ++ (src.filter (midiWindow startSample numSamples)).map
    (fun m => ⟨m.ts + delta, m.ev⟩)

/-- Modelled from the spec: `juce::MidiBuffer::clear (startSample, numSamples)`
removes the events inside the window. -/
def midiClear (buf : List MidiEvent) (startSample numSamples : ℤ) : List MidiEvent :=
  buf.filter (fun m => ! midiWindow startSample numSamples m)

/-- MIDI path of `LatencyAudioNode::process` (UtilityNodes.h lines 77, 83-84):
`midi.addEvents (inputMidi, 0, -1, latencyNumSamples)` stores the block's input
events with offsets shifted up by the delay; then
`pc.buffers.midi.addEvents (midi, latencyNumSamples, numSamples, -latencyNumSamples)`
emits every stored event whose shifted offset lies in
`[latencyNumSamples, latencyNumSamples + numSamples)`, rebased down by the delay;
finally `midi.clear (latencyNumSamples, numSamples)` drops the emitted window
from storage.  Returns (new storage, the events this call emitted). -/
def latencyProcessMidi (latencyNumSamples numSamples : ℤ)
    (stored inputMidi : List MidiEvent) : List MidiEvent × List MidiEvent :=
  let stored1 := midiAddEvents stored inputMidi 0 (-1) latencyNumSamples
  let emitted := midiAddEvents [] stored1 latencyNumSamples numSamples (-latencyNumSamples)
  (midiClear stored1 latencyNumSamples numSamples, emitted)

/-- Repeated `process` calls on the MIDI path; every block's emissions are
rebased to global sample positions (block `b`, local offset `k` becomes
`b * numSamples + k`).  Returns the final storage and all emitted events at
global positions. -/
def latencyMidiRun (latencyNumSamples numSamples : ℤ) (stored : List MidiEvent) :
    List (List MidiEvent) → List MidiEvent × List MidiEvent
  | [] => (stored, [])
  | blk :: rest =>
    let r := latencyProcessMidi latencyNumSamples numSamples stored blk
    let r2 := latencyMidiRun latencyNumSamples numSamples r.1 rest
    (r2.1, r.2 ++ r2.2.map (fun m => ⟨m.ts + numSamples, m.ev⟩))

/-!
Part 3: node properties and the `SummingAudioNode` latency-alignment transform
(UtilityNodes.h lines 40-46, 126-143, 192-242).
-/

/-- The `AudioNodeProperties` struct: the field set of the spec, section 3 (the header
declaring the struct is not under `src/`).  `SummingAudioNode`'s aggregation
(UtilityNodes.h lines 128-131) explicitly initialises `hasAudio`, `hasMidi` and
`numberOfChannels`; `latencyNumSamples` starts from the struct's default of `0`
(modelled from the spec, which gives `latencyNumSamples = max across inputs`
starting from no latency).  C++ `int` fields become `ℤ`. -/
structure AudioNodeProperties where
  hasAudio : Bool
  hasMidi : Bool
  numberOfChannels : ℤ
  latencyNumSamples : ℤ
deriving DecidableEq

/-- Node shapes needed by the verified claims: an abstract input node with fixed
properties, `LatencyAudioNode` wrappers, and `SummingAudioNode`s over an ordered
input list. -/
inductive ANode where
  | leaf (props : AudioNodeProperties)
  | latency (input : ANode) (latencyNumSamples : ℤ)
  | summing (inputs : List ANode)

/-- One step of `SummingAudioNode::getAudioNodeProperties`'s loop (UtilityNodes.h
lines 133-140): OR the flags, take the max of channel count and latency. -/
def combineProps (acc p : AudioNodeProperties) : AudioNodeProperties :=
  ⟨acc.hasAudio || p.hasAudio, acc.hasMidi || p.hasMidi,
   max acc.numberOfChannels p.numberOfChannels,
   max acc.latencyNumSamples p.latencyNumSamples⟩

/-- The whole aggregation loop: fold `combineProps` from the explicit
initialisation `{false, false, 0, 0}` over the inputs' properties. -/
def sumCombine (ps : List AudioNodeProperties) : AudioNodeProperties :=
  ps.foldl combineProps ⟨false, false, 0, 0⟩

/-- Embedding of `getAudioNodeProperties` for the three node shapes: a leaf reports its fixed
properties; `LatencyAudioNode` (UtilityNodes.h lines 40-46) reports its input's
properties with `latencyNumSamples` increased by its delay; `SummingAudioNode`
(lines 126-143) aggregates over its inputs. -/
def getAudioNodeProperties : ANode → AudioNodeProperties
  | ANode.leaf p => p
  | ANode.latency input d =>
    let p := getAudioNodeProperties input
    ⟨p.hasAudio, p.hasMidi, p.numberOfChannels, p.latencyNumSamples + d⟩
  | ANode.summing inputs =>
    sumCombine (inputs.attach.map (fun nd => getAudioNodeProperties nd.1))
decreasing_by
  all_goals first
    | (simp_wf; omega)
    | (have h := List.sizeOf_lt_of_mem nd.2; simp_wf; omega)

/-- Latency, in samples, a node reports. -/
def nodeLatency (nd : ANode) : ℤ :=
  (getAudioNodeProperties nd).latencyNumSamples

/-- The `latencyNumSamples` a `SummingAudioNode` over these inputs reports. -/
def summingMaxLatency (nodes : List ANode) : ℤ :=
  (getAudioNodeProperties (ANode.summing nodes)).latencyNumSamples

/-- Loop body of `SummingAudioNode::createLatencyNodes` (UtilityNodes.h
lines 197-226) for one input: when `latencyToAdd == 0` the input stays in place
(first component) and nothing is appended; otherwise the slot is nulled
(`node = nullptr`) and a `LatencyAudioNode` wrapping the input with delay
`maxLatency - nodeLatency` is created, initialised, and queued for appending
(second component). -/
def visitNode (maxLatency : ℤ) (nd : ANode) : Option ANode × Option ANode :=
  if maxLatency - nodeLatency nd = 0 then (some nd, none)
  else (none, some (ANode.latency nd (maxLatency - nodeLatency nd)))

/-- Embedding of `SummingAudioNode::createLatencyNodes` (UtilityNodes.h lines 192-242),
returning both the rebuilt input list and the log of
`latencyNode->initialise (info)` calls (line 223; `AudioNode::initialise` itself
is outside `src/`, so the log records on which new nodes it was invoked).
Following the source: the kept inputs stay in their slots, the new latency nodes
are appended at the back, and the nulled slots are erased
(`std::remove_if`, lines 235-237). -/
def createLatencyNodesWithLog (nodes : List ANode) : List ANode × List ANode :=
  let visited := nodes.map (visitNode (summingMaxLatency nodes))
  (visited.filterMap Prod.fst ++ visited.filterMap Prod.snd,
   visited.filterMap Prod.snd)

/-- The rebuilt direct-input list; `SummingAudioNode::prepareToPlay` runs
exactly `createLatencyNodes` (UtilityNodes.h lines 155-158). -/
def createLatencyNodes (nodes : List ANode) : List ANode :=
  (createLatencyNodesWithLog nodes).1

/-!
Part 4: the audio part of `SummingAudioNode::process` (UtilityNodes.h
lines 169-186).  An audio block is a list of channels, each a list of samples.
-/

/-- Adding one input's audio into the destination (UtilityNodes.h lines 178-182):
the overlapping channel range `[0, min (input channels) (dest channels))` is
added channel by channel; destination channels beyond the input's own channel
count are left untouched, and input channels beyond the destination's are
dropped. -/
def addFrom : List (List ℚ) → List (List ℚ) → List (List ℚ)
  | dest, [] => dest
  | [], _ => []
  | dch :: dest, sch :: src => List.zipWith (· + ·) dch sch :: addFrom dest src

/-- Audio part of `SummingAudioNode::process` (UtilityNodes.h lines 169-186):
every input's processed output is added into the destination in turn. -/
def summingProcessAudio (inputs : List (List (List ℚ))) (dest : List (List ℚ)) :
    List (List ℚ) :=
  inputs.foldl addFrom dest

/-- Sample `s` of channel `c` of an audio block (0 outside the block). -/
def blockSample (blk : List (List ℚ)) (c s : ℕ) : ℚ :=
  (blk.getD c []).getD s 0

/-!
Part 5: `LiveMidiOutputNode` (tracktion_LiveMidiOutputNode.cpp lines 46-75).
MIDI messages are abstract payloads (`ℕ`).
-/

/-- The cross-thread state of a `LiveMidiOutputNode`, plus an observation trail:
`delivered` records every message passed to
`AudioTrack::Listener::recordedMidiMessageSentToPlugins`
(tracktion_LiveMidiOutputNode.cpp line 72); `asyncPending` models
`juce::AsyncUpdater`'s coalesced trigger flag. -/
structure LiveMidiOutputState where
  pendingMessages : List ℕ
  dispatchingMessages : List ℕ
  asyncPending : Bool
  delivered : List ℕ
deriving DecidableEq

/-- Freshly constructed node: both queues empty, no request pending, nothing
delivered. -/
def initialLiveMidiOutputState : LiveMidiOutputState :=
  ⟨[], [], false, []⟩

/-- Modelled from the spec: `juce::AsyncUpdater::triggerAsyncUpdate` (JUCE is
outside this repository) requests one asynchronous callback; requests made while
one is already pending coalesce into that single callback, so the model is a
flag. -/
def triggerAsyncUpdate (s : LiveMidiOutputState) : LiveMidiOutputState :=
  { s with asyncPending := true }

/-- One block's buffers: audio plus the block's ordered MIDI messages. -/
structure LiveBuffers where
  audio : List (List ℚ)
  midi : List ℕ

/-- Embedding of `LiveMidiOutputNode::process` (tracktion_LiveMidiOutputNode.cpp lines 46-61):
copy the input audio and MIDI unchanged to the output buffers, append every MIDI
message of the block to `pendingMessages`, and call `triggerAsyncUpdate` when
`pendingMessages` is non-empty.  Returns (new state, output buffers, whether a
notification was requested by this call). -/
def liveMidiProcess (s : LiveMidiOutputState) (source : LiveBuffers) :
    LiveMidiOutputState × LiveBuffers × Bool :=
  let s1 := { s with pendingMessages := s.pendingMessages ++ source.midi }
  if s1.pendingMessages.isEmpty then
    (s1, ⟨source.audio, source.midi⟩, false)
  else
    (triggerAsyncUpdate s1, ⟨source.audio, source.midi⟩, true)

/-- Embedding of `LiveMidiOutputNode::handleAsyncUpdate` (tracktion_LiveMidiOutputNode.cpp
lines 64-75): swap `pendingMessages` with `dispatchingMessages` under the lock,
deliver every swapped-out message to the listeners, then clear the dispatch
queue. -/
def handleAsyncUpdate (s : LiveMidiOutputState) : LiveMidiOutputState :=
  let swapped := { s with pendingMessages := s.dispatchingMessages,
                          dispatchingMessages := s.pendingMessages }
  { swapped with delivered := swapped.delivered ++ swapped.dispatchingMessages,
                 dispatchingMessages := [] }

/-- A sequential schedule of real-time `process` calls interleaved with the
event loop servicing the coalesced async request. -/
inductive LiveStep where
  | processBlock (source : LiveBuffers)
  | serviceAsync

/-- Modelled from the spec: the event loop services a pending request by
clearing the flag and running `handleAsyncUpdate`; when no request is pending it
does nothing (coalesced requests produce one callback). -/
def liveStep (s : LiveMidiOutputState) : LiveStep → LiveMidiOutputState
  | LiveStep.processBlock source => (liveMidiProcess s source).1
  | LiveStep.serviceAsync =>
    if s.asyncPending then handleAsyncUpdate { s with asyncPending := false } else s

/-- Run a schedule from a state. -/
def liveRun (s : LiveMidiOutputState) (steps : List LiveStep) : LiveMidiOutputState :=
  steps.foldl liveStep s

/-- Every MIDI message entering across a schedule, in arrival order. -/
def liveMidiOf (steps : List LiveStep) : List ℕ :=
  (steps.filterMap (fun st => match st with
    | LiveStep.processBlock source => some source.midi
    | LiveStep.serviceAsync => none)).flatten

theorem latencyRun_spec (n : ℕ) (blocks : List (List ℚ × List ℚ)) :
    ∀ fifo : AudioFifo,
      (∀ b ∈ blocks, b.1.length = n ∧ b.2.length = n) →
      fifo.data.length + n + 1 ≤ fifo.size →
      latencyRun fifo blocks =
        some (⟨fifo.size, (fifo.data ++ (blocks.map Prod.fst).flatten).drop (blocks.length * n)⟩,
              List.zipWith (· + ·) (blocks.map Prod.snd).flatten
                ((fifo.data ++ (blocks.map Prod.fst).flatten).take (blocks.length * n))) := by
  induction blocks with
  | nil =>
    intro fifo _ _
    simp [latencyRun]
  | cons blk rest ih =>
    intro fifo hb hcap
    obtain ⟨hb1, hb2⟩ := hb blk (List.mem_cons_self blk rest)
    have hwrite : fifo.write blk.1 = some ⟨fifo.size, fifo.data ++ blk.1⟩ := by
      unfold AudioFifo.write
      rw [if_pos (by omega)]
    have hread : AudioFifo.readAdding ⟨fifo.size, fifo.data ++ blk.1⟩ blk.2 =
        some (⟨fifo.size, (fifo.data ++ blk.1).drop n⟩,
              List.zipWith (· + ·) blk.2 ((fifo.data ++ blk.1).take n)) := by
      unfold AudioFifo.readAdding
      rw [if_pos (by simp only [List.length_append, hb1, hb2]; omega)]
      rw [hb2]
    have hlen1 : ((fifo.data ++ blk.1).drop n).length = fifo.data.length := by
      simp [hb1]
    have hih := ih ⟨fifo.size, (fifo.data ++ blk.1).drop n⟩
      (fun b hmem => hb b (List.mem_cons_of_mem blk hmem))
      (by simpa [hlen1] using hcap)
    have hflat : ((fifo.data ++ blk.1).drop n ++ ((rest.map Prod.fst).flatten)) =
        (fifo.data ++ (blk.1 ++ (rest.map Prod.fst).flatten)).drop n := by
      rw [← List.append_assoc]
      exact (List.drop_append_of_le_length
        (by simp only [List.length_append, hb1]; omega)).symm
    simp only [latencyRun, latencyProcessAudio, hwrite, hread, hih, hflat]
    have hXlen : n ≤ (fifo.data ++ (blk.1 ++ (rest.map Prod.fst).flatten)).length := by
      simp only [List.length_append, hb1]
      omega
    have htakes : (fifo.data ++ (blk.1 ++ (rest.map Prod.fst).flatten)).take ((rest.length + 1) * n) =
        (fifo.data ++ blk.1).take n ++
          ((fifo.data ++ (blk.1 ++ (rest.map Prod.fst).flatten)).drop n).take (rest.length * n) := by
      have : (rest.length + 1) * n = n + rest.length * n := by ring
      rw [this, List.take_add, ← List.append_assoc]
      congr 1
      exact List.take_append_of_le_length
        (by simp only [List.length_append, hb1]; omega)
    have hdrops : ((fifo.data ++ (blk.1 ++ (rest.map Prod.fst).flatten)).drop n).drop (rest.length * n) =
        (fifo.data ++ (blk.1 ++ (rest.map Prod.fst).flatten)).drop ((rest.length + 1) * n) := by
      rw [List.drop_drop]
      congr 1
      ring
    have hzip : List.zipWith (· + ·) (blk.2 ++ (rest.map Prod.snd).flatten)
          ((fifo.data ++ blk.1).take n ++
            ((fifo.data ++ (blk.1 ++ (rest.map Prod.fst).flatten)).drop n).take (rest.length * n)) =
        List.zipWith (· + ·) blk.2 ((fifo.data ++ blk.1).take n) ++
          List.zipWith (· + ·) (rest.map Prod.snd).flatten
            (((fifo.data ++ (blk.1 ++ (rest.map Prod.fst).flatten)).drop n).take (rest.length * n)) := by
      refine List.zipWith_append _ _ _ _ _ ?_
      have hfb : n ≤ (fifo.data ++ blk.1).length := by
        simp only [List.length_append, hb1]
        omega
      rw [hb2, List.length_take]
      omega
    simp only [List.map_cons, List.flatten_cons, List.length_cons, htakes, hzip, ← hdrops]

/-- Helper: adding a delayed stream onto an all-silent destination leaves just the
delayed stream. -/
theorem zipWith_add_replicate_zero (l : List ℚ) (k : ℕ) (h : l.length ≤ k) :
    List.zipWith (· + ·) (List.replicate k (0 : ℚ)) l = l := by
  induction l generalizing k with
  | nil => simp
  | cons a t ih =>
    cases k with
    | zero => simp at h
    | succ m =>
      simp only [List.replicate_succ, List.zipWith_cons_cons, zero_add]
      rw [ih m (by simpa using h)]

theorem latencyPrepareToPlay_eq (d n : ℕ) :
    latencyPrepareToPlay d n = some ⟨d + n + 1, List.replicate d 0⟩ := by
  unfold latencyPrepareToPlay AudioFifo.writeSilence AudioFifo.write
  rw [if_pos (by simp only [List.length_nil, List.length_replicate]; omega)]
  simp

theorem flatten_map_snd_replicate (blocks : List (List ℚ × List ℚ)) (n : ℕ)
    (hdest : ∀ b ∈ blocks, b.2 = List.replicate n 0) :
    (blocks.map Prod.snd).flatten = List.replicate (blocks.length * n) 0 := by
  induction blocks with
  | nil => simp
  | cons b rest ih =>
    simp only [List.map_cons, List.flatten_cons, hdest b (List.mem_cons_self b rest),
      List.length_cons]
    rw [ih (fun x hx => hdest x (List.mem_cons_of_mem b hx)), ← List.replicate_add]
    congr 1
    ring

theorem impulse_length (k : ℕ) : (impulse k).length = k := by
  cases k <;> simp [impulse]

theorem impulse_getD (k i : ℕ) :
    (impulse k).getD i 0 = if i = 0 ∧ 0 < k then 1 else 0 := by
  cases k with
  | zero => cases i <;> simp [impulse, List.getD]
  | succ m =>
    cases i with
    | zero => simp [impulse, List.getD]
    | succ j =>
      simp only [impulse, Nat.succ_ne_zero, false_and, if_false]
      show (List.replicate m (0:ℚ)).getD j 0 = 0
      simp only [List.getD_eq_getElem?_getD, List.getElem?_replicate]
      split <;> rfl

/-- C6: FIFO underflow unreachability and process totality.  A `LatencyAudioNode`
prepared with delay `d` and block size `n` (fifo of `d + n + 1` slots primed with
exactly `d` silent samples) never hits the fatal FIFO jasserts: for any sequence
of `process` calls whose input and destination blocks all hold exactly `n`
samples, every write fits, every read finds at least `n` samples ready, and the
run always produces an output (`isSome`, i.e. `process` never abstains). -/
theorem latency_fifo_no_underflow (d n : ℕ) (blocks : List (List ℚ × List ℚ))
    (fifo : AudioFifo) (hprep : latencyPrepareToPlay d n = some fifo)
    (hb : ∀ b ∈ blocks, b.1.length = n ∧ b.2.length = n) :
    (latencyRun fifo blocks).isSome := by
  have hfifo : fifo = ⟨d + n + 1, List.replicate d 0⟩ := by
    rw [latencyPrepareToPlay_eq] at hprep
    exact (Option.some_inj.mp hprep).symm
  subst hfifo
  rw [latencyRun_spec n blocks _ hb (by simp)]
  rfl

/-- Closed witness for `latency_fifo_no_underflow` at delay 2, block size 3,
two concrete process calls. -/
theorem latency_fifo_no_underflow_witness :
    (latencyRun ⟨6, [0, 0]⟩ [([1, 2, 3], [0, 0, 0]), ([4, 5, 6], [0, 0, 0])]).isSome := by
  refine latency_fifo_no_underflow 2 3 _ _ ?_ ?_
  · rw [latencyPrepareToPlay_eq]
    rfl
  · intro b hmem
    simp only [List.mem_cons, List.not_mem_nil, or_false] at hmem
    rcases hmem with h | h <;> subst h <;> exact ⟨rfl, rfl⟩

/-- C3: Delay exactness.  A prepared `LatencyAudioNode` with delay `d`, fed a unit
impulse at global sample 0 into zeroed destination blocks, reproduces the impulse
bit-exactly at global output sample `d` with every other output sample silent,
for every decomposition of the stream into blocks of any fixed size `n`
(block sizes 1, 7 and 512 are instances). -/
theorem latency_delay_exactness (d n : ℕ) (blocks : List (List ℚ × List ℚ))
    (fifo : AudioFifo) (hprep : latencyPrepareToPlay d n = some fifo)
    (hb : ∀ b ∈ blocks, b.1.length = n ∧ b.2.length = n)
    (hdest : ∀ b ∈ blocks, b.2 = List.replicate n 0)
    (himp : (blocks.map Prod.fst).flatten = impulse (blocks.length * n)) :
    ∃ fifo2 outs, latencyRun fifo blocks = some (fifo2, outs) ∧
      outs.length = blocks.length * n ∧
      ∀ i < blocks.length * n, outs.getD i 0 = if i = d then 1 else 0 := by
  have hfifo : fifo = ⟨d + n + 1, List.replicate d 0⟩ := by
    rw [latencyPrepareToPlay_eq] at hprep
    exact (Option.some_inj.mp hprep).symm
  subst hfifo
  rw [latencyRun_spec n blocks _ hb (by simp)]
  have hflat2 := flatten_map_snd_replicate blocks n hdest
  have hXlen : (List.replicate d (0:ℚ) ++ (blocks.map Prod.fst).flatten).length =
      d + blocks.length * n := by
    rw [List.length_append, List.length_replicate, himp, impulse_length]
  refine ⟨_, _, rfl, ?_, ?_⟩
  · rw [hflat2, zipWith_add_replicate_zero _ _ (List.length_take_le _ _), List.length_take,
      hXlen]
    exact Nat.min_eq_left (Nat.le_add_left _ _)
  · intro i hi
    rw [hflat2, zipWith_add_replicate_zero _ _ (List.length_take_le _ _)]
    have htake : ((List.replicate d (0:ℚ) ++ (blocks.map Prod.fst).flatten).take
          (blocks.length * n)).getD i 0 =
        (List.replicate d (0:ℚ) ++ (blocks.map Prod.fst).flatten).getD i 0 := by
      simp [List.getD_eq_getElem?_getD, List.getElem?_take, hi]
    rw [htake]
    by_cases hid : i < d
    · rw [List.getD_append _ _ 0 i (by simpa using hid), if_neg (by omega)]
      simp only [List.getD_eq_getElem?_getD, List.getElem?_replicate]
      split <;> rfl
    · rw [List.getD_append_right _ _ 0 i (by simpa using hid), List.length_replicate, himp,
        impulse_getD]
      by_cases hieq : i = d
      · rw [if_pos ⟨by omega, Nat.lt_of_le_of_lt (Nat.zero_le i) hi⟩, if_pos hieq]
      · have hno : ¬ (i - d = 0 ∧ 0 < blocks.length * n) := by
          rintro ⟨h1, _⟩
          exact hieq (by omega)
        rw [if_neg hno, if_neg hieq]

/-- Closed witness for `latency_delay_exactness`: delay 2, block size 3, two
blocks carrying an impulse at sample 0; the impulse emerges at output sample 2. -/
theorem latency_delay_exactness_witness :
    ∃ fifo2 outs,
      latencyRun ⟨6, [0, 0]⟩ [([1, 0, 0], [0, 0, 0]), ([0, 0, 0], [0, 0, 0])] =
        some (fifo2, outs) ∧
      outs.length = 2 * 3 ∧
      ∀ i < 2 * 3, outs.getD i 0 = if i = 2 then 1 else 0 := by
  have h := latency_delay_exactness 2 3 [([1, 0, 0], [0, 0, 0]), ([0, 0, 0], [0, 0, 0])]
    ⟨6, [0, 0]⟩ (by rw [latencyPrepareToPlay_eq]; rfl)
    (by
      intro b hmem
      simp only [List.mem_cons, List.not_mem_nil, or_false] at hmem
      rcases hmem with h | h <;> subst h <;> exact ⟨rfl, rfl⟩)
    (by
      intro b hmem
      simp only [List.mem_cons, List.not_mem_nil, or_false] at hmem
      rcases hmem with h | h <;> subst h <;> rfl)
    (by rfl)
  simpa using h

/-- C9 (implicit): the destination block is accumulated into, never cleared or
overwritten.  Over any run of a prepared `LatencyAudioNode`, the concatenated
final destination contents equal the concatenated prior destination contents
plus, pointwise, the samples read out of the FIFO (the `d` priming zeros followed
by the input stream); a pure-delay output therefore appears exactly when the
prior destination contents are all zero. -/
theorem latency_output_additive (d n : ℕ) (blocks : List (List ℚ × List ℚ))
    (fifo : AudioFifo) (hprep : latencyPrepareToPlay d n = some fifo)
    (hb : ∀ b ∈ blocks, b.1.length = n ∧ b.2.length = n) :
    latencyRun fifo blocks =
      some (⟨d + n + 1,
              (List.replicate d 0 ++ (blocks.map Prod.fst).flatten).drop (blocks.length * n)⟩,
            List.zipWith (· + ·) (blocks.map Prod.snd).flatten
              ((List.replicate d 0 ++ (blocks.map Prod.fst).flatten).take (blocks.length * n))) := by
  have hfifo : fifo = ⟨d + n + 1, List.replicate d 0⟩ := by
    rw [latencyPrepareToPlay_eq] at hprep
    exact (Option.some_inj.mp hprep).symm
  subst hfifo
  exact latencyRun_spec n blocks _ hb (by simp)

/-- Closed witness for `latency_output_additive`: delay 1, block size 2, one call
with a nonzero prior destination; the output is prior contents plus the delayed
input, not the delayed input alone. -/
theorem latency_output_additive_witness :
    latencyRun ⟨4, [0]⟩ [([5, 7], [10, 20])] = some (⟨4, [7]⟩, [10, 25]) := by
  have h := latency_output_additive 1 2 [([5, 7], [10, 20])] ⟨4, [0]⟩
    (by rw [latencyPrepareToPlay_eq]; rfl)
    (by
      intro b hmem
      simp only [List.mem_cons, List.not_mem_nil, or_false] at hmem
      subst hmem
      exact ⟨rfl, rfl⟩)
  norm_num [List.zipWith] at h
  convert h using 2

/-- C2 evaluated at the failing input (delay 1, block size 1, one event at local
offset 0 of block 0): the event is emitted exactly once but in the very same
block, at global sample 0 — the claimed position `k + d = 1` is never produced. -/
theorem latency_midi_not_delayed :
    latencyMidiRun 1 1 [] [[⟨0, 42⟩]] = (([] : List MidiEvent), [⟨0, 42⟩]) ∧
      MidiEvent.mk (0 + 1) 42 ∉ (latencyMidiRun 1 1 [] [[⟨0, 42⟩]]).2 := by
  exact ⟨rfl, by decide⟩

theorem getAudioNodeProperties_summing (inputs : List ANode) :
    getAudioNodeProperties (ANode.summing inputs) =
      sumCombine (inputs.map getAudioNodeProperties) := by
  rw [getAudioNodeProperties]
  congr 1
  simp

theorem foldl_combineProps_eq (ps : List AudioNodeProperties) (acc : AudioNodeProperties) :
    ps.foldl combineProps acc =
      ⟨acc.hasAudio || ps.any (fun p => p.hasAudio),
       acc.hasMidi || ps.any (fun p => p.hasMidi),
       (ps.map (fun p => p.numberOfChannels)).foldl max acc.numberOfChannels,
       (ps.map (fun p => p.latencyNumSamples)).foldl max acc.latencyNumSamples⟩ := by
  induction ps generalizing acc with
  | nil => simp
  | cons p rest ih =>
    simp [List.foldl_cons, ih, combineProps, Bool.or_assoc]

theorem sumCombine_eq (ps : List AudioNodeProperties) :
    sumCombine ps =
      ⟨ps.any (fun p => p.hasAudio), ps.any (fun p => p.hasMidi),
       (ps.map (fun p => p.numberOfChannels)).foldl max 0,
       (ps.map (fun p => p.latencyNumSamples)).foldl max 0⟩ := by
  rw [sumCombine, foldl_combineProps_eq]
  rfl

theorem le_foldl_max (l : List ℤ) (a : ℤ) : a ≤ l.foldl max a := by
  induction l generalizing a with
  | nil => exact le_refl a
  | cons x xs ih => exact le_trans (le_max_left a x) (ih (max a x))

theorem foldl_max_le_of_mem (l : List ℤ) (a x : ℤ) (h : x ∈ l) : x ≤ l.foldl max a := by
  induction l generalizing a with
  | nil => exact absurd h (List.not_mem_nil x)
  | cons y ys ih =>
    rcases List.mem_cons.mp h with rfl | h2
    · exact le_trans (le_max_right a x) (le_foldl_max ys (max a x))
    · exact ih (max a y) h2

theorem foldl_max_mem (l : List ℤ) (a : ℤ) : l.foldl max a = a ∨ l.foldl max a ∈ l := by
  induction l generalizing a with
  | nil => exact Or.inl rfl
  | cons y ys ih =>
    simp only [List.foldl_cons, List.mem_cons]
    rcases ih (max a y) with h | h
    · rcases max_choice a y with hm | hm
      · exact Or.inl (h.trans hm)
      · exact Or.inr (Or.inl (h.trans hm))
    · exact Or.inr (Or.inr h)

theorem foldl_max_zero_spec (l : List ℤ) (hne : l ≠ []) (hpos : ∀ x ∈ l, 0 ≤ x) :
    (∃ x ∈ l, l.foldl max 0 = x) ∧ ∀ x ∈ l, x ≤ l.foldl max 0 := by
  refine ⟨?_, fun x hx => foldl_max_le_of_mem l 0 x hx⟩
  rcases foldl_max_mem l 0 with h | h
  · obtain ⟨y, ys, rfl⟩ := List.exists_cons_of_ne_nil hne
    refine ⟨y, List.mem_cons_self y ys, ?_⟩
    have h1 : y ≤ (y :: ys).foldl max 0 := foldl_max_le_of_mem _ 0 y (List.mem_cons_self y ys)
    have h2 : 0 ≤ y := hpos y (List.mem_cons_self y ys)
    omega
  · exact ⟨_, h, rfl⟩

theorem nodeLatency_latency (nd : ANode) (d : ℤ) :
    nodeLatency (ANode.latency nd d) = nodeLatency nd + d := by
  simp [nodeLatency, getAudioNodeProperties]

theorem summingMaxLatency_eq (nodes : List ANode) :
    summingMaxLatency nodes = (nodes.map nodeLatency).foldl max 0 := by
  unfold summingMaxLatency
  rw [getAudioNodeProperties_summing, sumCombine_eq]
  simp only [List.map_map]
  rfl

theorem visit_fst_split (M : ℤ) (l : List ANode) :
    (l.map (visitNode M)).filterMap Prod.fst =
      l.filter (fun nd => decide (nodeLatency nd = M)) := by
  induction l with
  | nil => rfl
  | cons nd rest ih =>
    by_cases h : M - nodeLatency nd = 0
    · have he : nodeLatency nd = M := (sub_eq_zero.mp h).symm
      simp [visitNode, h, he, List.filterMap_cons, List.filter_cons, ih]
    · have he : ¬ nodeLatency nd = M := fun hc => h (by rw [hc]; ring)
      simp [visitNode, h, he, List.filterMap_cons, List.filter_cons, ih]

theorem visit_snd_split (M : ℤ) (l : List ANode) :
    (l.map (visitNode M)).filterMap Prod.snd =
      (l.filter (fun nd => ! decide (nodeLatency nd = M))).map
        (fun nd => ANode.latency nd (M - nodeLatency nd)) := by
  induction l with
  | nil => rfl
  | cons nd rest ih =>
    by_cases h : M - nodeLatency nd = 0
    · have he : nodeLatency nd = M := (sub_eq_zero.mp h).symm
      simp [visitNode, h, he, List.filterMap_cons, List.filter_cons, ih]
    · have he : ¬ nodeLatency nd = M := fun hc => h (by rw [hc]; ring)
      simp [visitNode, h, he, List.filterMap_cons, List.filter_cons, ih]

theorem createLatencyNodesWithLog_eq (nodes : List ANode) :
    createLatencyNodesWithLog nodes =
      (nodes.filter (fun nd => decide (nodeLatency nd = summingMaxLatency nodes)) ++
         (nodes.filter (fun nd => ! decide (nodeLatency nd = summingMaxLatency nodes))).map
           (fun nd => ANode.latency nd (summingMaxLatency nodes - nodeLatency nd)),
       (nodes.filter (fun nd => ! decide (nodeLatency nd = summingMaxLatency nodes))).map
         (fun nd => ANode.latency nd (summingMaxLatency nodes - nodeLatency nd))) := by
  have hdef : createLatencyNodesWithLog nodes =
      ((nodes.map (visitNode (summingMaxLatency nodes))).filterMap Prod.fst ++
         (nodes.map (visitNode (summingMaxLatency nodes))).filterMap Prod.snd,
       (nodes.map (visitNode (summingMaxLatency nodes))).filterMap Prod.snd) := rfl
  rw [hdef, visit_fst_split, visit_snd_split]

/-- C4: `SummingAudioNode::getAudioNodeProperties` aggregation: `hasAudio` and
`hasMidi` are the logical OR of the direct inputs' flags, and `numberOfChannels`
and `latencyNumSamples` are the maxima over the direct inputs (both attained by
some input and bounding every input), for any non-empty input list whose channel
counts and latencies are non-negative. -/
theorem summing_properties (nodes : List ANode) (hne : nodes ≠ [])
    (hch : ∀ nd ∈ nodes, 0 ≤ (getAudioNodeProperties nd).numberOfChannels)
    (hlat : ∀ nd ∈ nodes, 0 ≤ (getAudioNodeProperties nd).latencyNumSamples) :
    ((getAudioNodeProperties (ANode.summing nodes)).hasAudio = true ↔
      ∃ nd ∈ nodes, (getAudioNodeProperties nd).hasAudio = true) ∧
    ((getAudioNodeProperties (ANode.summing nodes)).hasMidi = true ↔
      ∃ nd ∈ nodes, (getAudioNodeProperties nd).hasMidi = true) ∧
    ((∃ nd ∈ nodes, (getAudioNodeProperties (ANode.summing nodes)).numberOfChannels =
        (getAudioNodeProperties nd).numberOfChannels) ∧
      ∀ nd ∈ nodes, (getAudioNodeProperties nd).numberOfChannels ≤
        (getAudioNodeProperties (ANode.summing nodes)).numberOfChannels) ∧
    ((∃ nd ∈ nodes, (getAudioNodeProperties (ANode.summing nodes)).latencyNumSamples =
        (getAudioNodeProperties nd).latencyNumSamples) ∧
      ∀ nd ∈ nodes, (getAudioNodeProperties nd).latencyNumSamples ≤
        (getAudioNodeProperties (ANode.summing nodes)).latencyNumSamples) := by
  rw [getAudioNodeProperties_summing, sumCombine_eq]
  simp only [List.map_map, Function.comp]
  have hchspec := foldl_max_zero_spec
    (nodes.map (fun nd => (getAudioNodeProperties nd).numberOfChannels))
    (by simpa using hne)
    (by
      intro x hx
      obtain ⟨nd, hnd, rfl⟩ := List.mem_map.mp hx
      exact hch nd hnd)
  have hlatspec := foldl_max_zero_spec
    (nodes.map (fun nd => (getAudioNodeProperties nd).latencyNumSamples))
    (by simpa using hne)
    (by
      intro x hx
      obtain ⟨nd, hnd, rfl⟩ := List.mem_map.mp hx
      exact hlat nd hnd)
  refine ⟨?_, ?_, ⟨?_, ?_⟩, ⟨?_, ?_⟩⟩
  · simp [List.any_map, List.any_eq_true, Function.comp]
  · simp [List.any_map, List.any_eq_true, Function.comp]
  · obtain ⟨x, hx, heq⟩ := hchspec.1
    obtain ⟨nd, hnd, rfl⟩ := List.mem_map.mp hx
    exact ⟨nd, hnd, heq⟩
  · intro nd hnd
    exact hchspec.2 _ (List.mem_map.mpr ⟨nd, hnd, rfl⟩)
  · obtain ⟨x, hx, heq⟩ := hlatspec.1
    obtain ⟨nd, hnd, rfl⟩ := List.mem_map.mp hx
    exact ⟨nd, hnd, heq⟩
  · intro nd hnd
    exact hlatspec.2 _ (List.mem_map.mpr ⟨nd, hnd, rfl⟩)

/-- Closed witness for `summing_properties`: two inputs with properties
`{audio, no midi, 2 ch, latency 3}` and `{no audio, midi, 1 ch, latency 5}`. -/
theorem summing_properties_witness :
    ((getAudioNodeProperties (ANode.summing
        [ANode.leaf ⟨true, false, 2, 3⟩, ANode.leaf ⟨false, true, 1, 5⟩])).hasAudio = true ↔
      ∃ nd ∈ [ANode.leaf ⟨true, false, 2, 3⟩, ANode.leaf ⟨false, true, 1, 5⟩],
        (getAudioNodeProperties nd).hasAudio = true) ∧
    ((getAudioNodeProperties (ANode.summing
        [ANode.leaf ⟨true, false, 2, 3⟩, ANode.leaf ⟨false, true, 1, 5⟩])).hasMidi = true ↔
      ∃ nd ∈ [ANode.leaf ⟨true, false, 2, 3⟩, ANode.leaf ⟨false, true, 1, 5⟩],
        (getAudioNodeProperties nd).hasMidi = true) ∧
    ((∃ nd ∈ [ANode.leaf ⟨true, false, 2, 3⟩, ANode.leaf ⟨false, true, 1, 5⟩],
        (getAudioNodeProperties (ANode.summing
          [ANode.leaf ⟨true, false, 2, 3⟩, ANode.leaf ⟨false, true, 1, 5⟩])).numberOfChannels =
          (getAudioNodeProperties nd).numberOfChannels) ∧
      ∀ nd ∈ [ANode.leaf ⟨true, false, 2, 3⟩, ANode.leaf ⟨false, true, 1, 5⟩],
        (getAudioNodeProperties nd).numberOfChannels ≤
          (getAudioNodeProperties (ANode.summing
            [ANode.leaf ⟨true, false, 2, 3⟩, ANode.leaf ⟨false, true, 1, 5⟩])).numberOfChannels) ∧
    ((∃ nd ∈ [ANode.leaf ⟨true, false, 2, 3⟩, ANode.leaf ⟨false, true, 1, 5⟩],
        (getAudioNodeProperties (ANode.summing
          [ANode.leaf ⟨true, false, 2, 3⟩, ANode.leaf ⟨false, true, 1, 5⟩])).latencyNumSamples =
          (getAudioNodeProperties nd).latencyNumSamples) ∧
      ∀ nd ∈ [ANode.leaf ⟨true, false, 2, 3⟩, ANode.leaf ⟨false, true, 1, 5⟩],
        (getAudioNodeProperties nd).latencyNumSamples ≤
          (getAudioNodeProperties (ANode.summing
            [ANode.leaf ⟨true, false, 2, 3⟩, ANode.leaf ⟨false, true, 1, 5⟩])).latencyNumSamples) := by
  refine summing_properties _ (List.cons_ne_nil _ _) ?_ ?_
  · intro nd hmem
    simp only [List.mem_cons, List.not_mem_nil, or_false] at hmem
    rcases hmem with h | h <;> subst h <;> simp [getAudioNodeProperties]
  · intro nd hmem
    simp only [List.mem_cons, List.not_mem_nil, or_false] at hmem
    rcases hmem with h | h <;> subst h <;> simp [getAudioNodeProperties]

/-- C1: Latency convergence.  After `SummingAudioNode::prepareToPlay` runs
`createLatencyNodes`, the summing node's reported `latencyNumSamples` equals the
maximum of the latencies its original direct inputs declared (attained by some
input and bounding all of them), and every direct input of the post-transform
list reports exactly that value.  Hypotheses: at least one input, non-negative
declared latencies. -/
theorem summing_latency_convergence (nodes : List ANode) (hne : nodes ≠ [])
    (hlat : ∀ nd ∈ nodes, 0 ≤ nodeLatency nd) :
    (∃ nd ∈ nodes,
      (getAudioNodeProperties (ANode.summing (createLatencyNodes nodes))).latencyNumSamples =
        nodeLatency nd) ∧
    (∀ nd ∈ nodes, nodeLatency nd ≤
      (getAudioNodeProperties (ANode.summing (createLatencyNodes nodes))).latencyNumSamples) ∧
    (∀ x ∈ createLatencyNodes nodes,
      nodeLatency x =
        (getAudioNodeProperties (ANode.summing (createLatencyNodes nodes))).latencyNumSamples) := by
  have hnew : createLatencyNodes nodes =
      nodes.filter (fun nd => decide (nodeLatency nd = summingMaxLatency nodes)) ++
        (nodes.filter (fun nd => ! decide (nodeLatency nd = summingMaxLatency nodes))).map
          (fun nd => ANode.latency nd (summingMaxLatency nodes - nodeLatency nd)) := by
    unfold createLatencyNodes
    rw [createLatencyNodesWithLog_eq]
  have hmemlat : ∀ x ∈ createLatencyNodes nodes, nodeLatency x = summingMaxLatency nodes := by
    intro x hx
    rw [hnew] at hx
    rcases List.mem_append.mp hx with hx1 | hx2
    · have hp := List.of_mem_filter hx1
      simpa using hp
    · obtain ⟨nd, hnd, rfl⟩ := List.mem_map.mp hx2
      rw [nodeLatency_latency]
      ring
  have hlen : (createLatencyNodes nodes).length = nodes.length := by
    rw [hnew, List.length_append, List.length_map, ← List.length_append]
    exact (List.filter_append_perm _ nodes).length_eq
  have hne2 : createLatencyNodes nodes ≠ [] := by
    intro h0
    rw [h0] at hlen
    exact hne (List.eq_nil_of_length_eq_zero hlen.symm)
  have hM0pos : (0 : ℤ) ≤ summingMaxLatency nodes := by
    rw [summingMaxLatency_eq]
    exact le_foldl_max _ 0
  have hMspec := foldl_max_zero_spec ((createLatencyNodes nodes).map nodeLatency)
    (by simpa using hne2)
    (by
      intro x hx
      obtain ⟨nd, hnd, rfl⟩ := List.mem_map.mp hx
      rw [hmemlat nd hnd]
      exact hM0pos)
  have hMM0 :
      (getAudioNodeProperties (ANode.summing (createLatencyNodes nodes))).latencyNumSamples =
        summingMaxLatency nodes := by
    have h1 :
        (getAudioNodeProperties (ANode.summing (createLatencyNodes nodes))).latencyNumSamples =
          ((createLatencyNodes nodes).map nodeLatency).foldl max 0 :=
      summingMaxLatency_eq (createLatencyNodes nodes)
    obtain ⟨x, hx, heq⟩ := hMspec.1
    obtain ⟨nd, hnd, rfl⟩ := List.mem_map.mp hx
    rw [h1, heq, hmemlat nd hnd]
  have horig := foldl_max_zero_spec (nodes.map nodeLatency)
    (by simpa using hne)
    (by
      intro x hx
      obtain ⟨nd, hnd, rfl⟩ := List.mem_map.mp hx
      exact hlat nd hnd)
  refine ⟨?_, ?_, ?_⟩
  · obtain ⟨x, hx, heq⟩ := horig.1
    obtain ⟨nd, hnd, rfl⟩ := List.mem_map.mp hx
    exact ⟨nd, hnd, by rw [hMM0, summingMaxLatency_eq, heq]⟩
  · intro nd hnd
    rw [hMM0, summingMaxLatency_eq]
    exact horig.2 _ (List.mem_map.mpr ⟨nd, hnd, rfl⟩)
  · intro x hx
    rw [hMM0]
    exact hmemlat x hx

/-- Closed witness for `summing_latency_convergence`: two sources with latencies
0 and 10 (the spec's end-to-end scenario); the prepared summing node reports
latency 10 and both post-transform direct inputs do too. -/
theorem summing_latency_convergence_witness :
    (∃ nd ∈ [ANode.leaf ⟨true, false, 1, 0⟩, ANode.leaf ⟨true, false, 1, 10⟩],
      (getAudioNodeProperties (ANode.summing (createLatencyNodes
        [ANode.leaf ⟨true, false, 1, 0⟩, ANode.leaf ⟨true, false, 1, 10⟩]))).latencyNumSamples =
        nodeLatency nd) ∧
    (∀ nd ∈ [ANode.leaf ⟨true, false, 1, 0⟩, ANode.leaf ⟨true, false, 1, 10⟩],
      nodeLatency nd ≤
        (getAudioNodeProperties (ANode.summing (createLatencyNodes
          [ANode.leaf ⟨true, false, 1, 0⟩, ANode.leaf ⟨true, false, 1, 10⟩]))).latencyNumSamples) ∧
    (∀ x ∈ createLatencyNodes [ANode.leaf ⟨true, false, 1, 0⟩, ANode.leaf ⟨true, false, 1, 10⟩],
      nodeLatency x =
        (getAudioNodeProperties (ANode.summing (createLatencyNodes
          [ANode.leaf ⟨true, false, 1, 0⟩, ANode.leaf ⟨true, false, 1, 10⟩]))).latencyNumSamples) := by
  refine summing_latency_convergence _ (List.cons_ne_nil _ _) ?_
  intro nd hmem
  simp only [List.mem_cons, List.not_mem_nil, or_false] at hmem
  rcases hmem with h | h <;> subst h <;> simp [nodeLatency, getAudioNodeProperties]

/-- C10 (implicit): structure of the latency-alignment transform.  The rebuilt
direct-input list is the original inputs already at the maximum latency, in
their original relative order, followed by one freshly created
`LatencyAudioNode` per remaining original input (also in original relative
order), each wrapping exactly that original with delay `max - nodeLatency`; the
log of `initialise (info)` calls is exactly the list of inserted nodes; and the
kept originals together with the wrapped originals are a permutation of the
original input list, so every original input stays reachable through exactly one
direct input, none duplicated or lost. -/
theorem summing_transform_structure (nodes : List ANode) :
    createLatencyNodesWithLog nodes =
      (nodes.filter (fun nd => decide (nodeLatency nd = summingMaxLatency nodes)) ++
         (nodes.filter (fun nd => ! decide (nodeLatency nd = summingMaxLatency nodes))).map
           (fun nd => ANode.latency nd (summingMaxLatency nodes - nodeLatency nd)),
       (nodes.filter (fun nd => ! decide (nodeLatency nd = summingMaxLatency nodes))).map
         (fun nd => ANode.latency nd (summingMaxLatency nodes - nodeLatency nd))) ∧
    (nodes.filter (fun nd => decide (nodeLatency nd = summingMaxLatency nodes)) ++
       nodes.filter (fun nd => ! decide (nodeLatency nd = summingMaxLatency nodes))).Perm
      nodes :=
  ⟨createLatencyNodesWithLog_eq nodes, List.filter_append_perm _ nodes⟩

theorem getD_zipWith_add (a b : List ℚ) (s : ℕ) (ha : s < a.length) (hb : s < b.length) :
    (List.zipWith (· + ·) a b).getD s 0 = a.getD s 0 + b.getD s 0 := by
  induction a generalizing b s with
  | nil => simp at ha
  | cons x xs ih =>
    cases b with
    | nil => simp at hb
    | cons y ys =>
      cases s with
      | zero => simp
      | succ t =>
        simp only [List.zipWith_cons_cons, List.getD_cons_succ]
        exact ih ys t (by simpa using ha) (by simpa using hb)

theorem addFrom_length (dest src : List (List ℚ)) :
    (addFrom dest src).length = dest.length := by
  induction dest generalizing src with
  | nil => cases src <;> rfl
  | cons dch dest ih =>
    cases src with
    | nil => rfl
    | cons sch src => simp [addFrom, ih]

theorem addFrom_channel_length (dest src : List (List ℚ)) (n : ℕ)
    (hd : ∀ ch ∈ dest, ch.length = n) (hs : ∀ ch ∈ src, ch.length = n) :
    ∀ ch ∈ addFrom dest src, ch.length = n := by
  induction dest generalizing src with
  | nil =>
    cases src with
    | nil => intro ch hch; exact hd ch hch
    | cons sch src => intro ch hch; simp [addFrom] at hch
  | cons dch dest ih =>
    cases src with
    | nil => intro ch hch; exact hd ch hch
    | cons sch src =>
      intro ch hch
      simp only [addFrom, List.mem_cons] at hch
      rcases hch with rfl | hch
      · rw [List.length_zipWith, hd dch (List.mem_cons_self dch dest),
          hs sch (List.mem_cons_self sch src)]
        exact min_self n
      · exact ih src (fun c hc => hd c (List.mem_cons_of_mem dch hc))
          (fun c hc => hs c (List.mem_cons_of_mem sch hc)) ch hch

theorem blockSample_addFrom (dest src : List (List ℚ)) (n : ℕ)
    (hd : ∀ ch ∈ dest, ch.length = n) (hs : ∀ ch ∈ src, ch.length = n) :
    ∀ c < dest.length, ∀ s < n,
      blockSample (addFrom dest src) c s =
        blockSample dest c s + (if c < src.length then blockSample src c s else 0) := by
  induction dest generalizing src with
  | nil =>
    intro c hc
    simp at hc
  | cons dch dest ih =>
    intro c hc s hsn
    cases src with
    | nil =>
      have hni : ¬ c < ([] : List (List ℚ)).length := by simp
      rw [if_neg hni]
      show blockSample (dch :: dest) c s = blockSample (dch :: dest) c s + 0
      ring
    | cons sch src =>
      cases c with
      | zero =>
        have h0 : (0 : ℕ) < (sch :: src).length := by simp
        rw [if_pos h0]
        show (List.zipWith (· + ·) dch sch).getD s 0 = dch.getD s 0 + sch.getD s 0
        exact getD_zipWith_add dch sch s
          (by rw [hd dch (List.mem_cons_self dch dest)]; exact hsn)
          (by rw [hs sch (List.mem_cons_self sch src)]; exact hsn)
      | succ c2 =>
        have hstep := ih src (fun ch hc => hd ch (List.mem_cons_of_mem dch hc))
          (fun ch hc => hs ch (List.mem_cons_of_mem sch hc)) c2 (by simpa using hc) s hsn
        show blockSample (addFrom dest src) c2 s = blockSample dest c2 s + _
        rw [hstep]
        congr 1
        by_cases hcb : c2 < src.length
        · rw [if_pos hcb, if_pos (by simpa using Nat.succ_lt_succ hcb)]
          rfl
        · rw [if_neg hcb, if_neg (by simpa using fun hcon => hcb (Nat.lt_of_succ_lt_succ hcon))]

/-- C5: Summing accumulation semantics.  After `SummingAudioNode::process`, each
destination channel `c` holds its prior contents plus the sum of channel `c` of
every input having more than `c` channels (i.e. the overlap
`min (input channels) (dest channels)` per input); channels beyond an input's
own channel count receive nothing from that input.  With `N` identical
constant-`v` inputs this yields `N·v` added on the common channels. -/
theorem summing_accumulation (inputs : List (List (List ℚ))) (dest : List (List ℚ)) (n : ℕ)
    (hd : ∀ ch ∈ dest, ch.length = n)
    (hi : ∀ blk ∈ inputs, ∀ ch ∈ blk, ch.length = n) :
    ∀ c < dest.length, ∀ s < n,
      blockSample (summingProcessAudio inputs dest) c s =
        blockSample dest c s +
          ((inputs.filter (fun blk => decide (c < blk.length))).map
            (fun blk => blockSample blk c s)).sum := by
  induction inputs generalizing dest with
  | nil =>
    intro c hc s hsn
    simp [summingProcessAudio]
  | cons blk rest ih =>
    intro c hc s hsn
    have hblk := hi blk (List.mem_cons_self blk rest)
    have hd2 : ∀ ch ∈ addFrom dest blk, ch.length = n :=
      addFrom_channel_length dest blk n hd hblk
    have hlen2 : (addFrom dest blk).length = dest.length := addFrom_length dest blk
    have hstep := blockSample_addFrom dest blk n hd hblk c hc s hsn
    have hrest := ih (addFrom dest blk) hd2
      (fun b hb => hi b (List.mem_cons_of_mem blk hb)) c (by rw [hlen2]; exact hc) s hsn
    show blockSample (List.foldl addFrom (addFrom dest blk) rest) c s = _
    rw [show List.foldl addFrom (addFrom dest blk) rest =
        summingProcessAudio rest (addFrom dest blk) from rfl, hrest, hstep,
      List.filter_cons]
    by_cases hcb : c < blk.length
    · have hdec : decide (c < blk.length) = true := by simpa using hcb
      rw [if_pos hcb, if_pos hdec, List.map_cons, List.sum_cons]
      ring
    · have hdec : ¬ decide (c < blk.length) = true := by simpa using hcb
      rw [if_neg hcb, if_neg hdec]
      ring

/-- Closed witness for `summing_accumulation`: destination `[[10], [20]]`, one
two-channel input `[[1], [2]]` and one single-channel input `[[3]]`; channel 0
gains `1 + 3`, channel 1 gains only `2`. -/
theorem summing_accumulation_witness :
    blockSample (summingProcessAudio [[[1], [2]], [[3]]] [[10], [20]]) 1 0 =
      blockSample [[10], [20]] 1 0 +
        (([[[1], [2]], [[3]]].filter
            (fun blk => decide (1 < (blk : List (List ℚ)).length))).map
          (fun blk => blockSample blk 1 0)).sum := by
  refine summing_accumulation [[[1], [2]], [[3]]] [[10], [20]] 1 ?_ ?_ 1 (by norm_num) 0
    (by norm_num)
  · intro ch hch
    simp only [List.mem_cons, List.not_mem_nil, or_false] at hch
    rcases hch with h | h <;> subst h <;> rfl
  · intro blk hblk
    simp only [List.mem_cons, List.not_mem_nil, or_false] at hblk
    rcases hblk with h | h <;> subst h <;>
      (intro ch hch
       simp only [List.mem_cons, List.not_mem_nil, or_false] at hch) <;>
      (first | (rcases hch with h2 | h2 <;> subst h2 <;> rfl) | (subst hch; rfl))

/-- C7 counterexample to the claim as stated: process one block carrying message
5, then a second block carrying no MIDI at all before the handler runs.  The
second call gains the queue nothing, yet a notification is requested (the code
triggers whenever the queue is non-empty, not only when it gained elements). -/
theorem live_midi_trigger_without_gain :
    (liveMidiProcess (liveMidiProcess initialLiveMidiOutputState ⟨[], [5]⟩).1 ⟨[], []⟩).2.2 =
        true ∧
      (LiveBuffers.mk [] [] : LiveBuffers).midi = [] :=
  ⟨rfl, rfl⟩

/-- C7 (amended): `LiveMidiOutputNode::process` copies the input buffers
unchanged to the output, appends every MIDI message of the block to the pending
queue, and requests an asynchronous notification exactly when the pending queue
is non-empty at the end of the call (in particular whenever the call gained
elements); requests made while one is pending coalesce — triggering twice is the
same as triggering once. -/
theorem live_midi_process_passthrough (s : LiveMidiOutputState) (source : LiveBuffers) :
    (liveMidiProcess s source).2.1 = source ∧
    (liveMidiProcess s source).1.pendingMessages = s.pendingMessages ++ source.midi ∧
    ((liveMidiProcess s source).2.2 = true ↔
      s.pendingMessages ++ source.midi ≠ []) ∧
    triggerAsyncUpdate (triggerAsyncUpdate s) = triggerAsyncUpdate s := by
  unfold liveMidiProcess triggerAsyncUpdate
  by_cases h : (s.pendingMessages ++ source.midi).isEmpty
  · rw [if_pos h]
    refine ⟨rfl, rfl, ?_, rfl⟩
    simp only [List.isEmpty_iff] at h
    simp [h]
  · rw [if_neg h]
    refine ⟨rfl, rfl, ?_, rfl⟩
    simp only [List.isEmpty_iff] at h
    simp [h]

theorem liveMidiOf_cons_process (source : LiveBuffers) (rest : List LiveStep) :
    liveMidiOf (LiveStep.processBlock source :: rest) = source.midi ++ liveMidiOf rest := by
  simp [liveMidiOf, List.filterMap_cons]

theorem liveMidiOf_cons_service (rest : List LiveStep) :
    liveMidiOf (LiveStep.serviceAsync :: rest) = liveMidiOf rest := by
  simp [liveMidiOf, List.filterMap_cons]

theorem liveRun_invariant (steps : List LiveStep) :
    ∀ s : LiveMidiOutputState, s.dispatchingMessages = [] →
      (s.asyncPending = false → s.pendingMessages = []) →
      (liveRun s steps).delivered ++ (liveRun s steps).pendingMessages =
          s.delivered ++ s.pendingMessages ++ liveMidiOf steps ∧
        (liveRun s steps).dispatchingMessages = [] ∧
        ((liveRun s steps).asyncPending = false → (liveRun s steps).pendingMessages = []) := by
  induction steps with
  | nil =>
    intro s h1 h2
    refine ⟨?_, h1, h2⟩
    simp [liveRun, liveMidiOf]
  | cons st rest ih =>
    intro s h1 h2
    have hrun : liveRun s (st :: rest) = liveRun (liveStep s st) rest := rfl
    rw [hrun]
    cases st with
    | processBlock source =>
      by_cases hemp : (s.pendingMessages ++ source.midi).isEmpty = true
      · have hstep : liveStep s (LiveStep.processBlock source) =
            ⟨s.pendingMessages ++ source.midi, s.dispatchingMessages, s.asyncPending,
              s.delivered⟩ := by
          simp [liveStep, liveMidiProcess, hemp]
        rw [hstep]
        obtain ⟨ha, hb, hcimp⟩ := ih ⟨s.pendingMessages ++ source.midi, s.dispatchingMessages,
            s.asyncPending, s.delivered⟩ (by simpa using h1)
          (fun _ => by simpa using List.isEmpty_iff.mp hemp)
        refine ⟨?_, hb, hcimp⟩
        rw [ha, liveMidiOf_cons_process]
        simp [List.append_assoc]
      · have hstep : liveStep s (LiveStep.processBlock source) =
            ⟨s.pendingMessages ++ source.midi, s.dispatchingMessages, true, s.delivered⟩ := by
          simp [liveStep, liveMidiProcess, hemp, triggerAsyncUpdate]
        rw [hstep]
        obtain ⟨ha, hb, hcimp⟩ := ih ⟨s.pendingMessages ++ source.midi, s.dispatchingMessages,
            true, s.delivered⟩ (by simpa using h1) (by intro h; simp at h)
        refine ⟨?_, hb, hcimp⟩
        rw [ha, liveMidiOf_cons_process]
        simp [List.append_assoc]
    | serviceAsync =>
      by_cases hflag : s.asyncPending = true
      · have hstep : liveStep s LiveStep.serviceAsync =
            ⟨s.dispatchingMessages, [], false, s.delivered ++ s.pendingMessages⟩ := by
          simp [liveStep, hflag, handleAsyncUpdate]
        rw [hstep]
        obtain ⟨ha, hb, hcimp⟩ := ih ⟨s.dispatchingMessages, [], false,
            s.delivered ++ s.pendingMessages⟩ rfl (fun _ => by simpa using h1)
        refine ⟨?_, hb, hcimp⟩
        rw [ha, liveMidiOf_cons_service]
        simp [h1]
      · have hstep : liveStep s LiveStep.serviceAsync = s := by
          simp [liveStep, hflag]
        rw [hstep]
        obtain ⟨ha, hb, hcimp⟩ := ih s h1 h2
        refine ⟨?_, hb, hcimp⟩
        rw [ha, liveMidiOf_cons_service]

/-- C8: exactly-once delivery through the monitoring bridge.  Starting from a
fresh node, after any schedule of `process` calls and async servicings followed
by one final servicing, the messages delivered to listeners are exactly the MIDI
messages that entered, in order — each exactly once, however many coalesced wake
requests were absorbed along the way. -/
theorem live_midi_exactly_once (steps : List LiveStep) :
    (liveRun initialLiveMidiOutputState (steps ++ [LiveStep.serviceAsync])).delivered =
      liveMidiOf steps := by
  obtain ⟨ha, hb, hcimp⟩ := liveRun_invariant steps initialLiveMidiOutputState rfl (fun _ => rfl)
  have hsplit : liveRun initialLiveMidiOutputState (steps ++ [LiveStep.serviceAsync]) =
      liveStep (liveRun initialLiveMidiOutputState steps) LiveStep.serviceAsync := by
    simp [liveRun, List.foldl_append]
  rw [hsplit]
  by_cases hflag : (liveRun initialLiveMidiOutputState steps).asyncPending = true
  · have hstep : liveStep (liveRun initialLiveMidiOutputState steps) LiveStep.serviceAsync =
        ⟨(liveRun initialLiveMidiOutputState steps).dispatchingMessages, [], false,
          (liveRun initialLiveMidiOutputState steps).delivered ++
            (liveRun initialLiveMidiOutputState steps).pendingMessages⟩ := by
      simp [liveStep, hflag, handleAsyncUpdate]
    rw [hstep]
    show (liveRun initialLiveMidiOutputState steps).delivered ++
        (liveRun initialLiveMidiOutputState steps).pendingMessages = liveMidiOf steps
    simpa [initialLiveMidiOutputState] using ha
  · have hpend := hcimp (by simpa using hflag)
    have hstep : liveStep (liveRun initialLiveMidiOutputState steps) LiveStep.serviceAsync =
        liveRun initialLiveMidiOutputState steps := by
      simp [liveStep, hflag]
    rw [hstep]
    rw [hpend] at ha
    simpa [initialLiveMidiOutputState] using ha
